import Mathlib

/-!
Verification of the partitioned imaging/self-calibration pipeline of the
algorithm-reference-library, as exercised by the notebooks under
examples/arl (imaging-bags, imaging-pipelines, imaging-mfs, imaging-fits).

The repository snapshot ships only the notebook drivers; the library modules
they import (arl.graphs.bags, arl.visibility.gather_scatter,
arl.visibility.operations, arl.image.deconvolution, arl.pipelines.graphs,
arl.imaging, arl.calibration) are not part of the snapshot, so those
operations are modelled from the specification's contracts (sections 3-4.7)
and settled against that model.  Numeric values are embedded as exact
rationals; the external gridding/DFT kernels, which the spec treats as pure
collaborator functions, are parameters of the model.
-/

namespace ARL

open List

/-- One visibility sample: baseline coordinate (u,v,w), timestamp, antenna
pair, complex value and real weight, following the data model of spec
section 3 and the single-channel stokesI usage of the notebooks. -/
structure Sample where
  u : ℚ
  v : ℚ
  w : ℚ
  time : ℚ
  ant1 : ℕ
  ant2 : ℕ
  visRe : ℚ
  visIm : ℚ
  weight : ℚ
deriving DecidableEq

/-- The sample fields that identify a sample independently of its complex
visibility value: uvw, time, antenna pairing and weight. -/
def Sample.meta (s : Sample) : (ℚ × ℚ × ℚ) × ℚ × (ℕ × ℕ) × ℚ :=
  ((s.u, s.v, s.w), s.time, (s.ant1, s.ant2), s.weight)

/-- A point-source component of the sky model (flux and direction cosines),
as produced by create_skycomponent in the notebooks. -/
structure SkyComp where
  flux : ℚ
  l : ℚ
  m : ℚ
deriving DecidableEq

/-- The closed enumeration of predict/invert strategies of spec section 4.2. -/
inductive Strategy
  | direct2d
  | wstack
  | timeslice
  | facet
  | wprojection
deriving DecidableEq

/-- Total weight of a visibility set (the spec's conserved quantity and the
sumwt normalisation of an inversion). -/
def sumw (vs : List Sample) : ℚ :=
  (vs.map Sample.weight).sum

/-- Modelled from the spec: the w-slice index of a sample for a partition of
the w axis into `n` slices with boundaries `wmin + (k+1)*wstep`; the sample
falls in the slice counting the boundaries at or below its w coordinate.
The real visibility_scatter_w (arl.visibility.gather_scatter, absent from
the snapshot) computes equivalent slice boundaries from the data. -/
def wbinOf (n : ℕ) (wmin wstep : ℚ) (s : Sample) : ℕ :=
  (List.range (n - 1)).countP (fun (k : ℕ) => decide (wmin + ((k : ℚ) + 1) * wstep ≤ s.w))

/-- Modelled from the spec: the time-slice index of a sample, by the same
boundary-counting scheme as `wbinOf` applied to the timestamp; stands in for
the absent vis_timeslice_iter / visibility_scatter_time. -/
def tbinOf (n : ℕ) (tmin tstep : ℚ) (s : Sample) : ℕ :=
  (List.range (n - 1)).countP (fun (k : ℕ) => decide (tmin + ((k : ℚ) + 1) * tstep ≤ s.time))

/-- All `n` fibers of a list under an index function: fiber `i` keeps, in
their original order, the elements mapped to slice `i`. -/
def fibersBy {α : Type} (f : α → ℕ) (n : ℕ) (l : List α) : List (List α) :=
  (List.range n).map (fun i => l.filter (fun a => f a == i))

/-- Modelled from the spec (section 4.1): partition a list along an index
function into at most `n` disjoint slices, dropping slices that are empty
after filtering, as the spec's degenerate-partition rule requires. -/
def scatterBy {α : Type} (f : α → ℕ) (n : ℕ) (l : List α) : List (List α) :=
  (fibersBy f n l).filter (fun part => !part.isEmpty)

/-- Modelled from the spec: visibility_scatter_w of
arl.visibility.gather_scatter (absent from the snapshot) — split a
visibility set into at most `n` non-empty w-slices. -/
def visibility_scatter_w (n : ℕ) (wmin wstep : ℚ) (vs : List Sample) : List (List Sample) :=
  scatterBy (wbinOf n wmin wstep) n vs

/-- Modelled from the spec: time-axis counterpart of `visibility_scatter_w`. -/
def visibility_scatter_time (n : ℕ) (tmin tstep : ℚ) (vs : List Sample) : List (List Sample) :=
  scatterBy (tbinOf n tmin tstep) n vs

/-- Modelled from the spec: visibility_gather_w (absent from the snapshot)
recombines w-slices by concatenation. -/
def visibility_gather_w (parts : List (List Sample)) : List Sample :=
  parts.flatten

/-- Modelled from the spec: visibility_gather_time (absent from the
snapshot) recombines time-slices by concatenation. -/
def visibility_gather_time (parts : List (List Sample)) : List Sample :=
  parts.flatten

/-- Modelled from the spec (section 4.5): concatenate_visibility of
arl.visibility.operations (absent from the snapshot) concatenates partition
outputs into one visibility set. -/
def concatenate_visibility (parts : List (List Sample)) : List Sample :=
  parts.flatten

/-- A sample with its complex value replaced by unit amplitude, the
`want_psf` substitution of spec section 4.2. -/
def unitAmp (s : Sample) : Sample :=
  { s with visRe := 1, visIm := 0 }

/-- The visibility actually gridded by an inversion: the data itself, or the
unit-amplitude substitute when a PSF is requested. -/
def dopsfVis (dopsf : Bool) (vs : List Sample) : List Sample :=
  if dopsf then vs.map unitAmp else vs

/-- Weighted gridding accumulator: the weighted sum, over the samples, of the
external kernel's contribution of each sample to pixel `p`.  The kernel `K`
(the gridding/FFT collaborator of spec section 6) sees the whole sample,
including its complex value. -/
def gridAcc (K : Sample → ℕ → ℚ) (vs : List Sample) (p : ℕ) : ℚ :=
  (vs.map (fun s => s.weight * K s p)).sum

/-- Modelled from the spec (sections 4.2 and 6): a normalised inversion
`invert(vis, ..., want_psf)` returns the weight-normalised gridded image
together with the accumulated weight (sumwt); stands in for the absent
invert_2d / invert_wstack_single kernels, with the gridding mathematics
abstracted as the pure kernel `K`. -/
def invert (K : Sample → ℕ → ℚ) (dopsf : Bool) (vs : List Sample) : (ℕ → ℚ) × ℚ :=
  (fun p => gridAcc K (dopsfVis dopsf vs) p / sumw (dopsfVis dopsf vs),
   sumw (dopsfVis dopsf vs))

/-- Modelled from the spec (section 4.5): sum_invert_bag_results of
arl.graphs.bags (absent from the snapshot) merges partial (image, weight)
results as, per pixel, the weight-weighted sum of the images divided by the
summed weight, the summed weight being the combined sumwt. -/
def sum_invert_bag_results (results : List ((ℕ → ℚ) × ℚ)) : (ℕ → ℚ) × ℚ :=
  (fun p => (results.map (fun iw => iw.2 * iw.1 p)).sum / (results.map Prod.snd).sum,
   (results.map Prod.snd).sum)

/-- Modelled from the spec: safe_invert_list of arl.graphs.bags (absent from
the snapshot) inverts each partition of a list, silently skipping the empty
ones. -/
def safe_invert_list (K : Sample → ℕ → ℚ) (dopsf : Bool)
    (parts : List (List Sample)) : List ((ℕ → ℚ) × ℚ) :=
  (parts.filter (fun part => !part.isEmpty)).map (invert K dopsf)

/-- Modelled from the spec: one sample predicted from a model image by the
external forward kernel `pk`; the sample's identity fields are copied from
the template, only the complex value is produced. -/
def predict_single (pk : List ℚ → Sample → ℚ × ℚ) (model : List ℚ) (s : Sample) : Sample :=
  { s with visRe := (pk model s).1, visIm := (pk model s).2 }

/-- Modelled from the spec (section 4.2): the strategy-dispatched predict of
the imaging kernel adapter.  Non-slicing strategies map the kernel over the
template; w-stack and time-slice scatter the template along their axis,
predict each slice and concatenate the slice outputs, as the
scatter/predict/concatenate chains of the imaging-bags notebook do. -/
def predict (strat : Strategy) (pk : List ℚ → Sample → ℚ × ℚ) (model : List ℚ)
    (nslices : ℕ) (axmin axstep : ℚ) (vt : List Sample) : List Sample :=
  match strat with
  | .wstack =>
      concatenate_visibility
        ((visibility_scatter_w nslices axmin axstep vt).map (List.map (predict_single pk model)))
  | .timeslice =>
      concatenate_visibility
        ((visibility_scatter_time nslices axmin axstep vt).map (List.map (predict_single pk model)))
  | _ => vt.map (predict_single pk model)

/-- Modelled from the spec: safe_predict_list of arl.graphs.bags (absent
from the snapshot) predicts each partition of a list, skipping empty ones. -/
def safe_predict_list (pk : List ℚ → Sample → ℚ × ℚ) (model : List ℚ)
    (parts : List (List Sample)) : List (List Sample) :=
  (parts.filter (fun part => !part.isEmpty)).map (List.map (predict_single pk model))

/-- From the imaging-bags notebook: subtract_vis copies the first visibility
and subtracts the second's complex values from it sample-by-sample, pairing
samples by list position. -/
def subtract_vis (vis model_vis : List Sample) : List Sample :=
  List.zipWith
    (fun a b => { a with visRe := a.visRe - b.visRe, visIm := a.visIm - b.visIm })
    vis model_vis

/-- State-passing embedding of predict_skycomponent_visibility as the
notebooks use it: the call adds, to each sample of its visibility argument,
the direct-Fourier contribution of every component (the kernel `dft` is the
external DFT collaborator of spec section 6), writing the result into the
argument in place and also returning it.  The pair is (return value,
argument as observed after the call): the ingest_visibility cell of
imaging-bags and cells 8-14 of imaging-fits discard the return value and
keep using the argument as the predicted visibility, so the argument after
the call carries the filled values. -/
def predict_skycomponent_visibility (dft : Sample → SkyComp → ℚ × ℚ)
    (vt : List Sample) (comps : List SkyComp) : List Sample × List Sample :=
  let filled := vt.map (fun s =>
    { s with
      visRe := s.visRe + (comps.map (fun c => (dft s c).1)).sum,
      visIm := s.visIm + (comps.map (fun c => (dft s c).2)).sum })
  (filled, filled)

/-- Modelled from the spec (section 6): apply a per-antenna gain table to a
visibility set, scaling each sample's complex value by the gains of its two
antennas; stands in for the absent apply_gaintable of
arl.calibration.operations (real gains suffice for the claims settled
here). -/
def apply_gaintable (vs : List Sample) (g : ℕ → ℚ) : List Sample :=
  vs.map (fun s =>
    { s with
      visRe := g s.ant1 * g s.ant2 * s.visRe,
      visIm := g s.ant1 * g s.ant2 * s.visIm })

/-- Peak absolute pixel value of an image, the quantity the minor and major
cycle stopping rules compare against their thresholds. -/
def peakAbs (img : List ℚ) : ℚ :=
  (img.map (fun x => |x|)).foldr max 0

/-- Index of the first pixel attaining the peak absolute value. -/
def argmaxAbs (img : List ℚ) : ℕ :=
  (img.enum.foldl
    (fun best ix => if |img.getD best 0| < |ix.2| then ix.1 else best) 0)

/-- Value of the PSF recentred on pixel `ppos`, read at pixel `j` (zero
outside the PSF support). -/
def psfAt (psf : List ℚ) (ppos j : ℕ) : ℚ :=
  let idx : ℤ := (j : ℤ) - (ppos : ℤ) + (psf.length : ℤ) / 2
  if 0 ≤ idx then psf.getD idx.toNat 0 else 0

/-- Modelled from the spec (section 4.6): one Hogbom minor iteration on a
(model, residual) pair — find the residual peak, add `gain` times the peak
to the model at the peak pixel, and subtract the recentred, peak-scaled PSF
from the residual. -/
def hogbomStep (gain : ℚ) (psf : List ℚ) (st : List ℚ × List ℚ) : List ℚ × List ℚ :=
  let pp := argmaxAbs st.2
  let pv := st.2.getD pp 0
  (st.1.set pp (st.1.getD pp 0 + gain * pv),
   st.2.enum.map (fun jx => jx.2 - gain * pv * psfAt psf pp jx.1))

/-- Modelled from the spec: the minor-cycle stopping test — the peak
residual has fallen below the absolute threshold or below the fractional
threshold times the initial peak. -/
def cleanStop (threshold fracthresh peak0 : ℚ) (res : List ℚ) : Bool :=
  decide (peakAbs res < threshold) || decide (peakAbs res < fracthresh * peak0)

/-- Starting state of a minor-cycle loop: blank model, residual = dirty. -/
def cleanInit (dirty : List ℚ) : List ℚ × List ℚ :=
  (List.replicate dirty.length 0, dirty)

/-- Fuel-bounded minor-cycle loop: test the stopping rule before every
iteration, apply the step otherwise; returns the final state and the number
of iterations performed. -/
def cleanLoop (stop : List ℚ → Bool) (stepf : List ℚ × List ℚ → List ℚ × List ℚ) :
    ℕ → List ℚ × List ℚ → (List ℚ × List ℚ) × ℕ
  | 0, st => (st, 0)
  | n + 1, st =>
    if stop st.2 then (st, 0)
    else
      ((cleanLoop stop stepf n (stepf st)).1, (cleanLoop stop stepf n (stepf st)).2 + 1)

/-- Modelled from the spec (section 4.6): deconvolve_cube of
arl.image.deconvolution (absent from the snapshot) — run the minor-cycle
source extraction for up to `niter` iterations, stopping as soon as the peak
residual falls below `threshold` or below `fracthresh` times the initial
peak; returns the accumulated (model, residual) pair together with the
number of iterations it performed. -/
def deconvolve_cube (dirty psf : List ℚ) (niter : ℕ) (gain threshold fracthresh : ℚ) :
    (List ℚ × List ℚ) × ℕ :=
  cleanLoop (cleanStop threshold fracthresh (peakAbs dirty)) (hogbomStep gain psf)
    niter (cleanInit dirty)

/-- From the imaging-bags notebook: bag_deconvolve unpacks a zipped
(dirty, sumwt), (psf, sumwt) pair and keeps the component image of
deconvolve_cube. -/
def bag_deconvolve (dirty_psf_zip : (List ℚ × ℚ) × (List ℚ × ℚ))
    (niter : ℕ) (gain threshold fracthresh : ℚ) : List ℚ :=
  ((deconvolve_cube dirty_psf_zip.1.1 dirty_psf_zip.2.1 niter gain threshold fracthresh).1).1

/-- Materialise the first `npix` pixels of a function image. -/
def imgOf (npix : ℕ) (f : ℕ → ℚ) : List ℚ :=
  (List.range npix).map f

/-- Pixelwise sum of two images. -/
def addImg (a b : List ℚ) : List ℚ :=
  List.zipWith (· + ·) a b

/-- The state carried between major cycles: the (possibly gain-corrected)
observed visibility, the current residual visibility, the accumulated model
image, and the residual image of the last completed cycle. -/
structure PipeState where
  obsVis : List Sample
  resVis : List Sample
  model : List ℚ
  residImg : List ℚ
deriving DecidableEq

/-- Modelled from the spec (section 4.6): one major cycle —
Invert (dirty and PSF of the current residual visibility), Deconvolve
(minor cycle), Predict-Model (forward-predict the accumulated model over the
observed visibility) and Residual (subtract the prediction from the observed
visibility), finishing with the inverted image of the new residual that the
convergence test reads. -/
def majorStep (K : Sample → ℕ → ℚ) (pk : List ℚ → Sample → ℚ × ℚ) (strat : Strategy)
    (nslices : ℕ) (axmin axstep : ℚ) (npix niter : ℕ) (gain threshold fracthresh : ℚ)
    (st : PipeState) : PipeState :=
  let dirty := imgOf npix (invert K false st.resVis).1
  let psf := imgOf npix (invert K true st.resVis).1
  let dec := deconvolve_cube dirty psf niter gain threshold fracthresh
  let model := addImg st.model dec.1.1
  let model_vis := predict strat pk model nslices axmin axstep st.obsVis
  let resVis := subtract_vis st.obsVis model_vis
  { obsVis := st.obsVis, resVis := resVis, model := model,
    residImg := imgOf npix (invert K false resVis).1 }

/-- Modelled from the spec: the global convergence test — the residual peak
after a completed major cycle is below `threshold` as a fraction of the
initial dirty-image peak `peak0`. -/
def convTest (threshold peak0 : ℚ) (st : PipeState) : Bool :=
  decide (peakAbs st.residImg < threshold * peak0)

/-- Fuel-bounded major-cycle loop returning the trace of completed cycles:
run one cycle, stop with it if the convergence test passes, otherwise
continue; at most `n` cycles run. -/
def majorCycles {σ : Type} (stepf : σ → σ) (conv : σ → Bool) : ℕ → σ → List σ
  | 0, _ => []
  | n + 1, st =>
    if conv (stepf st) then [stepf st]
    else stepf st :: majorCycles stepf conv n (stepf st)

/-- Major-cycle loop whose step sees the 1-based cycle index, as the
self-calibration schedule requires. -/
def icalLoop {σ : Type} (stepAt : ℕ → σ → σ) (conv : σ → Bool) : ℕ → ℕ → σ → List σ
  | 0, _, _ => []
  | n + 1, i, st =>
    if conv (stepAt i st) then [stepAt i st]
    else stepAt i st :: icalLoop stepAt conv n (i + 1) (stepAt i st)

/-- Modelled from the spec (section 4.7): the self-calibration step of a
qualifying major cycle — solve a gain table against the model-predicted
visibility via the external solver; on solver-reported non-convergence
(`none`) fall back to identity gains; apply the gains to the visibility. -/
def selfcalStep (solver : List Sample → List Sample → Option (ℕ → ℚ))
    (pk : List ℚ → Sample → ℚ × ℚ) (strat : Strategy) (nslices : ℕ) (axmin axstep : ℚ)
    (st : PipeState) : PipeState :=
  let model_vis := predict strat pk st.model nslices axmin axstep st.obsVis
  let g := (solver st.obsVis model_vis).getD (fun _ => 1)
  { st with obsVis := apply_gaintable st.obsVis g, resVis := apply_gaintable st.resVis g }

/-- Initial pipeline state: residual visibility = observed visibility,
starting model `model0`, initial dirty image from a first inversion. -/
def initState (K : Sample → ℕ → ℚ) (npix : ℕ) (obs : List Sample) (model0 : List ℚ) :
    PipeState :=
  { obsVis := obs, resVis := obs, model := model0,
    residImg := imgOf npix (invert K false obs).1 }

/-- Modelled from the spec (section 4.6): the continuum-imaging pipeline of
arl.pipelines.graphs (absent from the snapshot) — repeat the major cycle up
to `nmajor` times, stopping early as soon as the fractional-residual
convergence test passes after a completed cycle; the value is the trace of
completed major cycles (the last entry holds the final model and residual
images). -/
def create_continuum_imaging_pipeline_graph (K : Sample → ℕ → ℚ)
    (pk : List ℚ → Sample → ℚ × ℚ) (strat : Strategy) (nslices : ℕ) (axmin axstep : ℚ)
    (npix niter : ℕ) (gain threshold fracthresh : ℚ) (nmajor : ℕ)
    (obs : List Sample) (model0 : List ℚ) : List PipeState :=
  majorCycles (majorStep K pk strat nslices axmin axstep npix niter gain threshold fracthresh)
    (convTest threshold (peakAbs (imgOf npix (invert K false obs).1)))
    nmajor (initState K npix obs model0)

/-- Modelled from the spec (sections 4.6-4.7): the ICAL pipeline — the same
major-cycle loop with a self-calibration step interposed at every cycle
whose 1-based index is at least `first_selfcal`. -/
def create_ical_pipeline_graph (solver : List Sample → List Sample → Option (ℕ → ℚ))
    (first_selfcal : ℕ) (K : Sample → ℕ → ℚ) (pk : List ℚ → Sample → ℚ × ℚ)
    (strat : Strategy) (nslices : ℕ) (axmin axstep : ℚ) (npix niter : ℕ)
    (gain threshold fracthresh : ℚ) (nmajor : ℕ)
    (obs : List Sample) (model0 : List ℚ) : List PipeState :=
  icalLoop
    (fun i st =>
      majorStep K pk strat nslices axmin axstep npix niter gain threshold fracthresh
        (if first_selfcal ≤ i then selfcalStep solver pk strat nslices axmin axstep st else st))
    (convTest threshold (peakAbs (imgOf npix (invert K false obs).1)))
    nmajor 1 (initState K npix obs model0)

/-- Predict kernel that returns zero visibilities, for concrete runs. -/
def pkZero : List ℚ → Sample → ℚ × ℚ :=
  fun _ _ => (0, 0)

/-- Gridding kernel reading the sample value and pixel index, for concrete
runs. -/
def kSimple : Sample → ℕ → ℚ :=
  fun s p => s.visRe + s.w + (p : ℚ)

/-- DFT kernel contributing each component's flux, for concrete runs. -/
def dftFlux : Sample → SkyComp → ℚ × ℚ :=
  fun _ c => (c.flux, 0)

/-- A concrete sample with the given u and w coordinates. -/
def smpl (uq wq : ℚ) : Sample :=
  { u := uq, v := 0, w := wq, time := 0, ant1 := 0, ant2 := 1,
    visRe := uq + 1, visIm := 0, weight := 1 }

/-- A concrete sample with the given u coordinate and timestamp. -/
def smplT (uq tq : ℚ) : Sample :=
  { u := uq, v := 0, w := 0, time := tq, ant1 := 0, ant2 := 1,
    visRe := uq + 1, visIm := 0, weight := 1 }

/-- A concrete sky component. -/
def compA : SkyComp :=
  { flux := 2, l := 0, m := 0 }

/-- A concrete partial invert result. -/
def imgA : (ℕ → ℚ) × ℚ :=
  (fun p => (p : ℚ), 2)

/-- Another concrete partial invert result. -/
def imgB : (ℕ → ℚ) × ℚ :=
  (fun _ => 3, 1)

/-! ## Helper lemmas: scatter/gather list machinery -/

theorem flatten_filter_nonempty {α : Type} (L : List (List α)) :
    (L.filter (fun part => !part.isEmpty)).flatten = L.flatten := by
  induction L with
  | nil => rfl
  | cons hd tl ih =>
    by_cases h : hd.isEmpty
    · have hnil : hd = [] := List.isEmpty_iff.mp h
      simp [hnil, ih]
    · simp [List.filter_cons, h, ih]

theorem fibersBy_succ {α : Type} (f : α → ℕ) (n : ℕ) (l : List α) :
    fibersBy f (n + 1) l = fibersBy f n l ++ [l.filter (fun a => f a == n)] := by
  simp [fibersBy, List.range_succ]

theorem fibersBy_flatten_perm_filter {α : Type} (f : α → ℕ) (n : ℕ) (l : List α) :
    (fibersBy f n l).flatten ~ l.filter (fun a => decide (f a < n)) := by
  induction n with
  | zero =>
    have h0 : l.filter (fun a => decide (f a < 0)) = [] :=
      List.filter_eq_nil_iff.mpr (by intro a _; simp)
    simp [fibersBy, h0]
  | succ n ih =>
    rw [fibersBy_succ, List.flatten_append]
    simp only [List.flatten_cons, List.flatten_nil, List.append_nil]
    have h1 : (l.filter (fun a => decide (f a < n + 1))).filter
        (fun a => decide (f a < n)) = l.filter (fun a => decide (f a < n)) := by
      rw [List.filter_filter]
      apply List.filter_congr
      intro a _
      by_cases hfa : f a < n
      · have hfa1 : f a < n + 1 := Nat.lt_succ_of_lt hfa
        simp [hfa, hfa1]
      · simp [hfa]
    have h2 : (l.filter (fun a => decide (f a < n + 1))).filter
        (fun a => !decide (f a < n)) = l.filter (fun a => f a == n) := by
      rw [List.filter_filter]
      apply List.filter_congr
      intro a _
      by_cases hfa : f a = n
      · simp [hfa]
      · by_cases hlt : f a < n
        · have : f a < n + 1 := Nat.lt_succ_of_lt hlt
          simp [hlt, hfa, this]
        · have : ¬ f a < n + 1 := by omega
          simp [hlt, hfa, this]
    have h3 := List.filter_append_perm (fun a => decide (f a < n))
      (l.filter (fun a => decide (f a < n + 1)))
    rw [h1, h2] at h3
    exact (ih.append_right _).trans h3

theorem scatterBy_flatten_perm {α : Type} (f : α → ℕ) (n : ℕ) (l : List α)
    (hb : ∀ a ∈ l, f a < n) : (scatterBy f n l).flatten ~ l := by
  have h := fibersBy_flatten_perm_filter f n l
  rw [List.filter_eq_self.mpr (by intro a ha; simpa using hb a ha)] at h
  rw [scatterBy, flatten_filter_nonempty]
  exact h

theorem filter_lt_append_filter_eq {α : Type} (f : α → ℕ) (n : ℕ) (l : List α)
    (hs : (l.map f).Pairwise (· ≤ ·)) :
    l.filter (fun a => decide (f a < n)) ++ l.filter (fun a => f a == n)
      = l.filter (fun a => decide (f a < n + 1)) := by
  induction l with
  | nil => rfl
  | cons a t ih =>
    rw [List.map_cons, List.pairwise_cons] at hs
    have hb : ∀ b ∈ t, f a ≤ f b := fun b hbm => hs.1 (f b) (List.mem_map_of_mem f hbm)
    rcases Nat.lt_trichotomy (f a) n with hlt | heq | hgt
    · rw [List.filter_cons_of_pos (by simp [hlt]),
        List.filter_cons_of_neg (by simp; omega),
        List.filter_cons_of_pos (by simp; omega), List.cons_append]
      exact congrArg (a :: ·) (ih hs.2)
    · have h1 : t.filter (fun x => decide (f x < n)) = [] :=
        List.filter_eq_nil_iff.mpr (by intro b hbm; have := hb b hbm; simp; omega)
      rw [List.filter_cons_of_neg (by simp; omega),
        List.filter_cons_of_pos (by simp [heq]),
        List.filter_cons_of_pos (by simp; omega), h1, List.nil_append]
      refine congrArg (a :: ·) (List.filter_congr ?_)
      intro b hbm
      have hfab := hb b hbm
      by_cases hfb : f b = n
      · simp [hfb]
      · have hge : ¬ f b < n + 1 := by omega
        simp [hfb, hge]
    · have key : ∀ b ∈ a :: t, n + 1 ≤ f b := by
        intro b hbm
        rcases List.mem_cons.mp hbm with hba | hbt
        · subst hba; omega
        · have := hb b hbt; omega
      have e1 : (a :: t).filter (fun x => decide (f x < n)) = [] :=
        List.filter_eq_nil_iff.mpr (by intro b hbm; have := key b hbm; simp; omega)
      have e2 : (a :: t).filter (fun x => f x == n) = [] :=
        List.filter_eq_nil_iff.mpr (by intro b hbm; have := key b hbm; simp; omega)
      have e3 : (a :: t).filter (fun x => decide (f x < n + 1)) = [] :=
        List.filter_eq_nil_iff.mpr (by intro b hbm; have := key b hbm; simp; omega)
      rw [e1, e2, e3]
      rfl

theorem fibersBy_flatten_of_sorted {α : Type} (f : α → ℕ) (n : ℕ) (l : List α)
    (hs : (l.map f).Pairwise (· ≤ ·)) :
    (fibersBy f n l).flatten = l.filter (fun a => decide (f a < n)) := by
  induction n with
  | zero =>
    have h0 : l.filter (fun a => decide (f a < 0)) = [] :=
      List.filter_eq_nil_iff.mpr (by intro a _; simp)
    simp [fibersBy, h0]
  | succ n ih =>
    rw [fibersBy_succ, List.flatten_append]
    simp only [List.flatten_cons, List.flatten_nil, List.append_nil]
    rw [ih, filter_lt_append_filter_eq f n l hs]

theorem scatterBy_flatten_of_sorted {α : Type} (f : α → ℕ) (n : ℕ) (l : List α)
    (hb : ∀ a ∈ l, f a < n) (hs : (l.map f).Pairwise (· ≤ ·)) :
    (scatterBy f n l).flatten = l := by
  rw [scatterBy, flatten_filter_nonempty, fibersBy_flatten_of_sorted f n l hs,
    List.filter_eq_self.mpr (by intro a ha; simpa using hb a ha)]

theorem countP_range_le (p : ℕ → Bool) (m : ℕ) : (List.range m).countP p ≤ m := by
  rw [List.countP_eq_length_filter]
  calc (List.filter p (List.range m)).length
      ≤ (List.range m).length := List.length_filter_le _ _
    _ = m := List.length_range m

theorem wbinOf_lt (n : ℕ) (wmin wstep : ℚ) (s : Sample) (h : 1 ≤ n) :
    wbinOf n wmin wstep s < n := by
  have hle : wbinOf n wmin wstep s ≤ n - 1 := countP_range_le _ _
  omega

theorem tbinOf_lt (n : ℕ) (tmin tstep : ℚ) (s : Sample) (h : 1 ≤ n) :
    tbinOf n tmin tstep s < n := by
  have hle : tbinOf n tmin tstep s ≤ n - 1 := countP_range_le _ _
  omega

theorem scatterBy_ne_nil {α : Type} (f : α → ℕ) (n : ℕ) (l : List α) :
    ∀ part ∈ scatterBy f n l, part ≠ [] := by
  intro part hp
  have := (List.mem_filter.mp hp).2
  simp only [Bool.not_eq_true'] at this
  intro hnil
  rw [hnil] at this
  simp at this

theorem scatterBy_filter_nonempty {α : Type} (f : α → ℕ) (n : ℕ) (l : List α) :
    (scatterBy f n l).filter (fun part => !part.isEmpty) = scatterBy f n l :=
  List.filter_eq_self.mpr (fun _part hp => (List.mem_filter.mp hp).2)

theorem length_le_flatten_length {α : Type} (L : List (List α)) (h : ∀ l ∈ L, l ≠ []) :
    L.length ≤ L.flatten.length := by
  induction L with
  | nil => simp
  | cons a t ih =>
    have hlen : 1 ≤ a.length := List.length_pos.mpr (h a (List.mem_cons_self a t))
    have iht := ih (fun l hl => h l (List.mem_cons_of_mem a hl))
    simp only [List.length_cons, List.flatten_cons, List.length_append]
    omega

/-! ## Helper lemmas: weighted sums -/

theorem mapSum_flatten {α : Type} (g : α → ℚ) (L : List (List α)) :
    ((L.flatten).map g).sum = (L.map (fun part => (part.map g).sum)).sum := by
  rw [List.map_flatten, List.sum_flatten, List.map_map]
  rfl

theorem sumw_flatten (L : List (List Sample)) : sumw L.flatten = (L.map sumw).sum :=
  mapSum_flatten Sample.weight L

theorem gridAcc_flatten (K : Sample → ℕ → ℚ) (L : List (List Sample)) (p : ℕ) :
    gridAcc K L.flatten p = (L.map (fun part => gridAcc K part p)).sum :=
  mapSum_flatten _ L

theorem sumw_perm {l₁ l₂ : List Sample} (h : l₁ ~ l₂) : sumw l₁ = sumw l₂ :=
  (h.map Sample.weight).sum_eq

theorem gridAcc_perm (K : Sample → ℕ → ℚ) (p : ℕ) {l₁ l₂ : List Sample} (h : l₁ ~ l₂) :
    gridAcc K l₁ p = gridAcc K l₂ p :=
  (h.map _).sum_eq

theorem sum_zero_of_nonneg {l : List ℚ} (h0 : ∀ x ∈ l, 0 ≤ x) (hs : l.sum = 0) :
    ∀ x ∈ l, x = 0 := by
  induction l with
  | nil => intro x hx; simp at hx
  | cons a t ih =>
    rw [List.sum_cons] at hs
    have hta : 0 ≤ a := h0 a (List.mem_cons_self a t)
    have htt : 0 ≤ t.sum := List.sum_nonneg (fun x hx => h0 x (List.mem_cons_of_mem a hx))
    have ha : a = 0 := by linarith
    have hts : t.sum = 0 := by linarith
    intro x hx
    rcases List.mem_cons.mp hx with hxa | hxt
    · rw [hxa, ha]
    · exact ih (fun y hy => h0 y (List.mem_cons_of_mem a hy)) hts x hxt

theorem gridAcc_eq_zero (K : Sample → ℕ → ℚ) (part : List Sample) (p : ℕ)
    (h0 : ∀ s ∈ part, 0 ≤ s.weight) (hz : sumw part = 0) : gridAcc K part p = 0 := by
  apply List.sum_eq_zero
  intro x hx
  rcases List.mem_map.mp hx with ⟨s, hs, rfl⟩
  have hw : s.weight = 0 := by
    refine sum_zero_of_nonneg ?_ hz s.weight (List.mem_map_of_mem Sample.weight hs)
    intro y hy
    rcases List.mem_map.mp hy with ⟨t, ht, rfl⟩
    exact h0 t ht
  rw [hw, zero_mul]

theorem invert_image_cancel (K : Sample → ℕ → ℚ) (part : List Sample) (p : ℕ)
    (h0 : ∀ s ∈ part, 0 ≤ s.weight) :
    sumw part * (gridAcc K part p / sumw part) = gridAcc K part p := by
  by_cases hz : sumw part = 0
  · rw [hz, zero_mul, gridAcc_eq_zero K part p h0 hz]
  · rw [mul_comm, div_mul_cancel₀ _ hz]

theorem sumw_dopsfVis (b : Bool) (vs : List Sample) : sumw (dopsfVis b vs) = sumw vs := by
  cases b
  · rfl
  · show ((vs.map unitAmp).map Sample.weight).sum = (vs.map Sample.weight).sum
    rw [List.map_map]
    have hw : Sample.weight ∘ unitAmp = Sample.weight := funext fun _ => rfl
    rw [hw]

theorem dopsfVis_flatten (b : Bool) (L : List (List Sample)) :
    dopsfVis b L.flatten = (L.map (dopsfVis b)).flatten := by
  cases b
  · have h : dopsfVis false = fun vs => vs := funext fun _ => rfl
    rw [h]
    simp
  · have h : dopsfVis true = List.map unitAmp := funext fun _ => rfl
    rw [h, List.map_flatten]

theorem dopsfVis_perm (b : Bool) {l₁ l₂ : List Sample} (h : l₁ ~ l₂) :
    dopsfVis b l₁ ~ dopsfVis b l₂ := by
  cases b
  · exact h
  · exact h.map unitAmp

theorem dopsfVis_nonneg (b : Bool) (vs : List Sample) (h : ∀ s ∈ vs, 0 ≤ s.weight) :
    ∀ s ∈ dopsfVis b vs, 0 ≤ s.weight := by
  cases b
  · exact h
  · intro s hs
    rcases List.mem_map.mp hs with ⟨t, ht, rfl⟩
    exact h t ht

/-! ## Claim C2: partition/recombine conservation -/

/-- Claim C2: along either non-resampling axis — w-plane or time —
recombining (gathering) the slices produced by partitioning a visibility set
into N slices reproduces the set exactly — same sample count, same total
weight, and the same samples up to reordering — because the slices are a
disjoint, exhaustive cover. -/
theorem visibility_partition_conservation (n : ℕ) (wmin wstep tmin tstep : ℚ)
    (vs : List Sample) (h : 1 ≤ n) :
    ((visibility_gather_w (visibility_scatter_w n wmin wstep vs)).length = vs.length ∧
     sumw (visibility_gather_w (visibility_scatter_w n wmin wstep vs)) = sumw vs ∧
     visibility_gather_w (visibility_scatter_w n wmin wstep vs) ~ vs) ∧
    ((visibility_gather_time (visibility_scatter_time n tmin tstep vs)).length = vs.length ∧
     sumw (visibility_gather_time (visibility_scatter_time n tmin tstep vs)) = sumw vs ∧
     visibility_gather_time (visibility_scatter_time n tmin tstep vs) ~ vs) := by
  have hw : visibility_gather_w (visibility_scatter_w n wmin wstep vs) ~ vs :=
    scatterBy_flatten_perm _ n vs (fun s _ => wbinOf_lt n wmin wstep s h)
  have ht : visibility_gather_time (visibility_scatter_time n tmin tstep vs) ~ vs :=
    scatterBy_flatten_perm _ n vs (fun s _ => tbinOf_lt n tmin tstep s h)
  exact ⟨⟨hw.length_eq, sumw_perm hw, hw⟩, ⟨ht.length_eq, sumw_perm ht, ht⟩⟩

/-- Witness for C2 at a concrete three-sample visibility split into two
slices: the samples spread over both w-bins and, in the time instance, both
time-bins. -/
theorem visibility_partition_conservation_witness :
    1 ≤ 2 ∧
    (((visibility_gather_w (visibility_scatter_w 2 0 1
          [smpl 0 (1/2), smplT 1 (3/2), smpl 2 (5/4)])).length
        = [smpl 0 (1/2), smplT 1 (3/2), smpl 2 (5/4)].length ∧
      sumw (visibility_gather_w (visibility_scatter_w 2 0 1
          [smpl 0 (1/2), smplT 1 (3/2), smpl 2 (5/4)]))
        = sumw [smpl 0 (1/2), smplT 1 (3/2), smpl 2 (5/4)] ∧
      visibility_gather_w (visibility_scatter_w 2 0 1
          [smpl 0 (1/2), smplT 1 (3/2), smpl 2 (5/4)])
        ~ [smpl 0 (1/2), smplT 1 (3/2), smpl 2 (5/4)]) ∧
     ((visibility_gather_time (visibility_scatter_time 2 0 1
          [smpl 0 (1/2), smplT 1 (3/2), smpl 2 (5/4)])).length
        = [smpl 0 (1/2), smplT 1 (3/2), smpl 2 (5/4)].length ∧
      sumw (visibility_gather_time (visibility_scatter_time 2 0 1
          [smpl 0 (1/2), smplT 1 (3/2), smpl 2 (5/4)]))
        = sumw [smpl 0 (1/2), smplT 1 (3/2), smpl 2 (5/4)] ∧
      visibility_gather_time (visibility_scatter_time 2 0 1
          [smpl 0 (1/2), smplT 1 (3/2), smpl 2 (5/4)])
        ~ [smpl 0 (1/2), smplT 1 (3/2), smpl 2 (5/4)])) :=
  ⟨by decide,
   visibility_partition_conservation 2 0 1 0 1
     [smpl 0 (1/2), smplT 1 (3/2), smpl 2 (5/4)] (by decide)⟩

/-! ## Claim C8: the partitioner never errors -/

/-- Claim C8: for every visibility set and requested slice count the
partitioner is total; slices empty after filtering are dropped, so every
returned slice is non-empty, and at most `min n (sample count)` slices come
back — fewer, non-empty partitions when `n` cannot be filled. -/
theorem visibility_scatter_w_never_errors (n : ℕ) (wmin wstep : ℚ) (vs : List Sample) :
    (∀ part ∈ visibility_scatter_w n wmin wstep vs, part ≠ []) ∧
    (visibility_scatter_w n wmin wstep vs).length ≤ n ∧
    (visibility_scatter_w n wmin wstep vs).length ≤ vs.length := by
  refine ⟨scatterBy_ne_nil _ n vs, ?_, ?_⟩
  · calc (visibility_scatter_w n wmin wstep vs).length
        ≤ (fibersBy (wbinOf n wmin wstep) n vs).length := List.length_filter_le _ _
      _ = n := by rw [fibersBy, List.length_map, List.length_range]
  · rcases Nat.eq_zero_or_pos n with h0 | hpos
    · subst h0
      simp [visibility_scatter_w, scatterBy, fibersBy]
    · have hflat : (visibility_scatter_w n wmin wstep vs).flatten ~ vs :=
        scatterBy_flatten_perm _ n vs (fun s _ => wbinOf_lt n wmin wstep s hpos)
      calc (visibility_scatter_w n wmin wstep vs).length
          ≤ ((visibility_scatter_w n wmin wstep vs).flatten).length :=
            length_le_flatten_length _ (scatterBy_ne_nil _ n vs)
        _ = vs.length := hflat.length_eq

/-! ## Claim C3: order-insensitivity of the image combiner -/

/-- Claim C3: feeding any permutation of a list of partial invert results to
the image combiner produces an identical output image and accumulated
weight (the model computes over exact rationals, where the weighted sums are
permutation-invariant). -/
theorem sum_invert_bag_results_perm_invariant (P Q : List ((ℕ → ℚ) × ℚ)) (h : P ~ Q) :
    sum_invert_bag_results P = sum_invert_bag_results Q := by
  have hsnd : (P.map Prod.snd).sum = (Q.map Prod.snd).sum := (h.map Prod.snd).sum_eq
  have himg : (fun p => (P.map (fun iw => iw.2 * iw.1 p)).sum / (P.map Prod.snd).sum)
      = (fun p => (Q.map (fun iw => iw.2 * iw.1 p)).sum / (Q.map Prod.snd).sum) :=
    funext fun p => by rw [(h.map (fun iw => iw.2 * iw.1 p)).sum_eq, hsnd]
  simp only [sum_invert_bag_results]
  rw [himg, hsnd]

/-- Witness for C3: swapping two concrete partial results leaves the
combined result unchanged. -/
theorem sum_invert_bag_results_perm_invariant_witness :
    sum_invert_bag_results [imgB, imgA] = sum_invert_bag_results [imgA, imgB] :=
  sum_invert_bag_results_perm_invariant [imgB, imgA] [imgA, imgB]
    (List.Perm.swap imgA imgB [])

/-! ## Claim C1: weighted-combination equivalence of partitioned inversion -/

/-- Claim C1: for every visibility set with non-negative weights and every
w-plane slice count, inverting the slices separately and merging the partial
(image, weight) pairs with the weighted combiner equals the single-pass
inversion of the whole set — exactly, pixel by pixel, in the exact-rational
model, hence within any floating tolerance. -/
theorem invert_partition_equivalence (K : Sample → ℕ → ℚ) (dopsf : Bool) (n : ℕ)
    (wmin wstep : ℚ) (vs : List Sample) (p : ℕ) (h1 : 1 ≤ n)
    (h2 : ∀ s ∈ vs, 0 ≤ s.weight) :
    (sum_invert_bag_results (safe_invert_list K dopsf
        (visibility_scatter_w n wmin wstep vs))).1 p = (invert K dopsf vs).1 p ∧
    (sum_invert_bag_results (safe_invert_list K dopsf
        (visibility_scatter_w n wmin wstep vs))).2 = (invert K dopsf vs).2 := by
  have hfp : (visibility_scatter_w n wmin wstep vs).flatten ~ vs :=
    scatterBy_flatten_perm _ n vs (fun s _ => wbinOf_lt n wmin wstep s h1)
  have hsafe : safe_invert_list K dopsf (visibility_scatter_w n wmin wstep vs)
      = (visibility_scatter_w n wmin wstep vs).map (invert K dopsf) := by
    rw [safe_invert_list, visibility_scatter_w, scatterBy_filter_nonempty]
  have hmem : ∀ part ∈ visibility_scatter_w n wmin wstep vs, ∀ s ∈ part, 0 ≤ s.weight := by
    intro part hpart s hs
    exact h2 s (hfp.mem_iff.mp (List.mem_flatten.mpr ⟨part, hpart, hs⟩))
  have hwsum : (((visibility_scatter_w n wmin wstep vs).map (invert K dopsf)).map
      Prod.snd).sum = sumw vs := by
    rw [List.map_map]
    have hcomp : (Prod.snd ∘ invert K dopsf)
        = fun part => sumw (dopsfVis dopsf part) := funext fun _ => rfl
    rw [hcomp]
    have hconst : (fun part => sumw (dopsfVis dopsf part)) = sumw :=
      funext (sumw_dopsfVis dopsf)
    rw [hconst, ← sumw_flatten, sumw_perm hfp]
  have hnum : (((visibility_scatter_w n wmin wstep vs).map (invert K dopsf)).map
      (fun iw => iw.2 * iw.1 p)).sum = gridAcc K (dopsfVis dopsf vs) p := by
    rw [List.map_map]
    have hcomp : ((fun iw : (ℕ → ℚ) × ℚ => iw.2 * iw.1 p) ∘ invert K dopsf)
        = fun part => sumw (dopsfVis dopsf part) *
            (gridAcc K (dopsfVis dopsf part) p / sumw (dopsfVis dopsf part)) :=
      funext fun _ => rfl
    rw [hcomp]
    have hcancel : (visibility_scatter_w n wmin wstep vs).map
        (fun part => sumw (dopsfVis dopsf part) *
          (gridAcc K (dopsfVis dopsf part) p / sumw (dopsfVis dopsf part)))
        = (visibility_scatter_w n wmin wstep vs).map
            (fun part => gridAcc K (dopsfVis dopsf part) p) :=
      List.map_congr_left (fun part hpart =>
        invert_image_cancel K (dopsfVis dopsf part) p
          (dopsfVis_nonneg dopsf part (hmem part hpart)))
    rw [hcancel]
    have hmm : (visibility_scatter_w n wmin wstep vs).map
        (fun part => gridAcc K (dopsfVis dopsf part) p)
        = ((visibility_scatter_w n wmin wstep vs).map (dopsfVis dopsf)).map
            (fun part => gridAcc K part p) := by
      rw [List.map_map]
      rfl
    rw [hmm, ← gridAcc_flatten, ← dopsfVis_flatten]
    exact gridAcc_perm K p (dopsfVis_perm dopsf hfp)
  constructor
  · show (((safe_invert_list K dopsf (visibility_scatter_w n wmin wstep vs)).map
        (fun iw => iw.2 * iw.1 p)).sum /
      ((safe_invert_list K dopsf (visibility_scatter_w n wmin wstep vs)).map
        Prod.snd).sum) = gridAcc K (dopsfVis dopsf vs) p / sumw (dopsfVis dopsf vs)
    rw [hsafe, hnum, hwsum, sumw_dopsfVis]
  · show ((safe_invert_list K dopsf (visibility_scatter_w n wmin wstep vs)).map
        Prod.snd).sum = sumw (dopsfVis dopsf vs)
    rw [hsafe, hwsum, sumw_dopsfVis]

/-- Witness for C1 at a concrete three-sample visibility, two w-slices, the
concrete gridding kernel and pixel 0. -/
theorem invert_partition_equivalence_witness :
    1 ≤ 2 ∧ (∀ s ∈ [smpl 0 (1/2), smpl 1 (3/2), smpl 2 (1/4)], 0 ≤ s.weight) ∧
    ((sum_invert_bag_results (safe_invert_list kSimple false
        (visibility_scatter_w 2 0 1 [smpl 0 (1/2), smpl 1 (3/2), smpl 2 (1/4)]))).1 0
      = (invert kSimple false [smpl 0 (1/2), smpl 1 (3/2), smpl 2 (1/4)]).1 0 ∧
    (sum_invert_bag_results (safe_invert_list kSimple false
        (visibility_scatter_w 2 0 1 [smpl 0 (1/2), smpl 1 (3/2), smpl 2 (1/4)]))).2
      = (invert kSimple false [smpl 0 (1/2), smpl 1 (3/2), smpl 2 (1/4)]).2) :=
  ⟨by decide, by decide,
   invert_partition_equivalence kSimple false 2 0 1
     [smpl 0 (1/2), smpl 1 (3/2), smpl 2 (1/4)] 0 (by decide) (by decide)⟩

/-! ## Helper lemmas: predict and sample metadata -/

theorem map_meta_map_predict_single (pk : List ℚ → Sample → ℚ × ℚ) (model : List ℚ)
    (l : List Sample) :
    (l.map (predict_single pk model)).map Sample.meta = l.map Sample.meta := by
  rw [List.map_map]
  have h : (Sample.meta ∘ predict_single pk model) = Sample.meta := funext fun _ => rfl
  rw [h]

theorem predict_slices_meta (pk : List ℚ → Sample → ℚ × ℚ) (model : List ℚ)
    (parts : List (List Sample)) :
    (concatenate_visibility (parts.map (List.map (predict_single pk model)))).map Sample.meta
      = (parts.flatten).map Sample.meta := by
  rw [concatenate_visibility, List.map_flatten, List.map_map]
  have h : (List.map Sample.meta ∘ List.map (predict_single pk model))
      = List.map Sample.meta := funext fun l => map_meta_map_predict_single pk model l
  rw [h, ← List.map_flatten]

theorem map_meta_vis_update (f g : Sample → ℚ) (l : List Sample) :
    (l.map (fun s => { s with visRe := f s, visIm := g s })).map Sample.meta
      = l.map Sample.meta := by
  rw [List.map_map]
  have h : (Sample.meta ∘ fun s => { s with visRe := f s, visIm := g s })
      = Sample.meta := funext fun _ => rfl
  rw [h]

/-! ## Claim C7 (corrected): ordering after partitioned predict -/

/-- Counterexample to C7 as stated: concatenating the slice outputs of a
partitioned predict does not restore the original sample ordering — on a
two-sample template whose w coordinates put the first sample in the second
slice, the combined output lists the samples in slice order, not template
order. -/
theorem concatenate_predict_reorders_cx :
    (concatenate_visibility (safe_predict_list pkZero []
        (visibility_scatter_w 2 0 1 [smpl 0 (3/2), smpl 1 (1/4)]))).map Sample.meta
      ≠ [smpl 0 (3/2), smpl 1 (1/4)].map Sample.meta := by
  with_unfolding_all decide

/-- Claim C7 amended: the combiner concatenates the slice outputs, which
groups the template's samples by slice; when the unpartitioned input is
already ordered by slice index (non-decreasing w-bins along the list) — and
only then, in general — the original sample ordering is restored exactly, so
positional operations such as subtract_vis pair corresponding samples. -/
theorem concatenate_predict_restores_order (pk : List ℚ → Sample → ℚ × ℚ)
    (model : List ℚ) (n : ℕ) (wmin wstep : ℚ) (vt : List Sample) (h1 : 1 ≤ n)
    (h2 : (vt.map (wbinOf n wmin wstep)).Pairwise (· ≤ ·)) :
    (concatenate_visibility (safe_predict_list pk model
        (visibility_scatter_w n wmin wstep vt))).map Sample.meta
      = vt.map Sample.meta := by
  have hsafe : safe_predict_list pk model (visibility_scatter_w n wmin wstep vt)
      = (visibility_scatter_w n wmin wstep vt).map (List.map (predict_single pk model)) := by
    rw [safe_predict_list, visibility_scatter_w, scatterBy_filter_nonempty]
  rw [hsafe, predict_slices_meta]
  rw [show (visibility_scatter_w n wmin wstep vt).flatten = vt from
    scatterBy_flatten_of_sorted _ n vt (fun s _ => wbinOf_lt n wmin wstep s h1) h2]

/-- Witness for the amended C7 at a concrete slice-ordered template. -/
theorem concatenate_predict_restores_order_witness :
    1 ≤ 2 ∧
    (([smpl 0 (1/4), smpl 1 (3/2)].map (wbinOf 2 0 1)).Pairwise (· ≤ ·)) ∧
    (concatenate_visibility (safe_predict_list pkZero []
        (visibility_scatter_w 2 0 1 [smpl 0 (1/4), smpl 1 (3/2)]))).map Sample.meta
      = [smpl 0 (1/4), smpl 1 (3/2)].map Sample.meta :=
  ⟨by decide, by with_unfolding_all decide,
   concatenate_predict_restores_order pkZero [] 2 0 1
     [smpl 0 (1/4), smpl 1 (3/2)] (by decide) (by with_unfolding_all decide)⟩

/-! ## Claim C9 (corrected): in-place mutation at the pipeline interface -/

/-- Counterexample to C9 as stated: predict_skycomponent_visibility does not
leave its visibility argument unchanged — after the call the argument
carries the predicted values (the notebooks discard the return value and
keep using the argument, which only works because of this in-place
update). -/
theorem predict_skycomponent_mutates_cx :
    (predict_skycomponent_visibility dftFlux [smpl 0 0] [compA]).2 ≠ [smpl 0 0] := by
  with_unfolding_all decide

/-- Claim C9 amended: predict_skycomponent_visibility updates its visibility
argument in place and returns it — the argument observed after the call is
exactly the returned visibility — and the update touches only the complex
values: sample count, uvw, times, antenna pairing and weights are
unchanged. -/
theorem predict_skycomponent_updates_in_place (dft : Sample → SkyComp → ℚ × ℚ)
    (vt : List Sample) (comps : List SkyComp) :
    (predict_skycomponent_visibility dft vt comps).2
      = (predict_skycomponent_visibility dft vt comps).1 ∧
    ((predict_skycomponent_visibility dft vt comps).1).map Sample.meta
      = vt.map Sample.meta := by
  refine ⟨rfl, ?_⟩
  exact map_meta_vis_update _ _ vt

/-! ## Claim C10 (corrected): predict preserves the template's samples -/

/-- Counterexample to C10 as stated: the w-stack predict strategy does not
return the template's uvw sequence position-by-position — on a template
whose first sample lies in a later w-slice, the output's u sequence differs
from the template's. -/
theorem predict_wstack_reorders_cx :
    (predict .wstack pkZero [] 2 0 1 [smpl 5 (3/2), smpl 6 (1/4)]).map Sample.u
      ≠ [smpl 5 (3/2), smpl 6 (1/4)].map Sample.u := by
  with_unfolding_all decide

/-- Claim C10 amended: every predict strategy returns the template's samples
with only the complex values recomputed — the metadata sequence is a
permutation of the template's, it depends only on the template and the
slicing (not on the model or kernel, so two predictions over the same
template with the same strategy align element-wise), and the non-slicing
strategies preserve the template's ordering exactly. -/
theorem predict_preserves_sample_set (strat : Strategy)
    (pk pk' : List ℚ → Sample → ℚ × ℚ) (model model' : List ℚ) (nslices : ℕ)
    (axmin axstep : ℚ) (vt : List Sample) (h : 1 ≤ nslices) :
    ((predict strat pk model nslices axmin axstep vt).map Sample.meta
      ~ vt.map Sample.meta) ∧
    (predict strat pk model nslices axmin axstep vt).map Sample.meta
      = (predict strat pk' model' nslices axmin axstep vt).map Sample.meta ∧
    (predict .direct2d pk model nslices axmin axstep vt).map Sample.meta
      = vt.map Sample.meta := by
  have hd : ∀ (pk₀ : List ℚ → Sample → ℚ × ℚ) (m₀ : List ℚ),
      (vt.map (predict_single pk₀ m₀)).map Sample.meta = vt.map Sample.meta :=
    fun pk₀ m₀ => map_meta_map_predict_single pk₀ m₀ vt
  have hw : ∀ (pk₀ : List ℚ → Sample → ℚ × ℚ) (m₀ : List ℚ),
      (predict .wstack pk₀ m₀ nslices axmin axstep vt).map Sample.meta
        = ((visibility_scatter_w nslices axmin axstep vt).flatten).map Sample.meta :=
    fun pk₀ m₀ => predict_slices_meta pk₀ m₀ (visibility_scatter_w nslices axmin axstep vt)
  have ht : ∀ (pk₀ : List ℚ → Sample → ℚ × ℚ) (m₀ : List ℚ),
      (predict .timeslice pk₀ m₀ nslices axmin axstep vt).map Sample.meta
        = ((visibility_scatter_time nslices axmin axstep vt).flatten).map Sample.meta :=
    fun pk₀ m₀ => predict_slices_meta pk₀ m₀ (visibility_scatter_time nslices axmin axstep vt)
  have hwperm : (visibility_scatter_w nslices axmin axstep vt).flatten ~ vt :=
    scatterBy_flatten_perm _ nslices vt (fun s _ => wbinOf_lt nslices axmin axstep s h)
  have htperm : (visibility_scatter_time nslices axmin axstep vt).flatten ~ vt :=
    scatterBy_flatten_perm _ nslices vt (fun s _ => tbinOf_lt nslices axmin axstep s h)
  cases strat with
  | direct2d => exact ⟨(hd pk model) ▸ List.Perm.refl _, (hd pk model).trans (hd pk' model').symm, hd pk model⟩
  | wstack =>
    refine ⟨?_, (hw pk model).trans (hw pk' model').symm, hd pk model⟩
    rw [hw pk model]
    exact hwperm.map Sample.meta
  | timeslice =>
    refine ⟨?_, (ht pk model).trans (ht pk' model').symm, hd pk model⟩
    rw [ht pk model]
    exact htperm.map Sample.meta
  | facet => exact ⟨(hd pk model) ▸ List.Perm.refl _, (hd pk model).trans (hd pk' model').symm, hd pk model⟩
  | wprojection => exact ⟨(hd pk model) ▸ List.Perm.refl _, (hd pk model).trans (hd pk' model').symm, hd pk model⟩

/-- Witness for the amended C10 at the w-stack strategy on a concrete
template whose slices come back reordered. -/
theorem predict_preserves_sample_set_witness :
    1 ≤ 2 ∧
    ((predict .wstack pkZero [] 2 0 1 [smpl 5 (3/2), smpl 6 (1/4)]).map Sample.meta
      ~ [smpl 5 (3/2), smpl 6 (1/4)].map Sample.meta) :=
  ⟨by decide,
   (predict_preserves_sample_set .wstack pkZero pkZero [] [] 2 0 1
     [smpl 5 (3/2), smpl 6 (1/4)] (by decide)).1⟩

/-! ## Helper lemmas: the minor-cycle loop -/

theorem cleanLoop_le (stop : List ℚ → Bool) (stepf : List ℚ × List ℚ → List ℚ × List ℚ) :
    ∀ (n : ℕ) (st : List ℚ × List ℚ), (cleanLoop stop stepf n st).2 ≤ n := by
  intro n
  induction n with
  | zero => intro st; simp [cleanLoop]
  | succ n ih =>
    intro st
    cases hstop : stop st.2 <;> simp [cleanLoop, hstop]
    exact ih (stepf st)

theorem cleanLoop_iterate (stop : List ℚ → Bool)
    (stepf : List ℚ × List ℚ → List ℚ × List ℚ) :
    ∀ (n : ℕ) (st : List ℚ × List ℚ),
      (cleanLoop stop stepf n st).1 = stepf^[(cleanLoop stop stepf n st).2] st := by
  intro n
  induction n with
  | zero => intro st; simp [cleanLoop]
  | succ n ih =>
    intro st
    cases hstop : stop st.2 <;> simp [cleanLoop, hstop]
    exact ih (stepf st)

theorem cleanLoop_no_early (stop : List ℚ → Bool)
    (stepf : List ℚ × List ℚ → List ℚ × List ℚ) :
    ∀ (n : ℕ) (st : List ℚ × List ℚ) (j : ℕ), j < (cleanLoop stop stepf n st).2 →
      stop ((stepf^[j] st).2) = false := by
  intro n
  induction n with
  | zero => intro st j hj; simp [cleanLoop] at hj
  | succ n ih =>
    intro st j hj
    cases hstop : stop st.2
    · rw [cleanLoop, if_neg (by simp [hstop])] at hj
      match j with
      | 0 => exact hstop
      | j + 1 =>
        rw [Function.iterate_succ_apply]
        exact ih (stepf st) j (by omega)
    · rw [cleanLoop, if_pos (by simp [hstop])] at hj
      simp at hj

theorem cleanLoop_stop_at_exit (stop : List ℚ → Bool)
    (stepf : List ℚ × List ℚ → List ℚ × List ℚ) :
    ∀ (n : ℕ) (st : List ℚ × List ℚ), (cleanLoop stop stepf n st).2 < n →
      stop (((cleanLoop stop stepf n st).1).2) = true := by
  intro n
  induction n with
  | zero => intro st h; simp [cleanLoop] at h
  | succ n ih =>
    intro st h
    cases hstop : stop st.2
    · rw [cleanLoop, if_neg (by simp [hstop])] at h ⊢
      exact ih (stepf st) (by omega)
    · rw [cleanLoop, if_pos (by simp [hstop])]
      exact hstop

/-! ## Claim C5: the minor-cycle iteration budget and stopping rule -/

/-- Claim C5: deconvolve_cube performs at most `niter` minor iterations,
stops at the first iteration whose peak residual is below `threshold` or
below `fracthresh` times the initial peak (no earlier iteration satisfies
the test, and when it stops before exhausting `niter` the test holds), and
returns the accumulated (model, residual) state of the iterations it
performed. -/
theorem deconvolve_cube_minor_cycle_budget (dirty psf : List ℚ) (niter : ℕ)
    (gain threshold fracthresh : ℚ) :
    (deconvolve_cube dirty psf niter gain threshold fracthresh).2 ≤ niter ∧
    (deconvolve_cube dirty psf niter gain threshold fracthresh).1
      = (hogbomStep gain psf)^[(deconvolve_cube dirty psf niter gain threshold fracthresh).2]
          (cleanInit dirty) ∧
    (∀ j < (deconvolve_cube dirty psf niter gain threshold fracthresh).2,
      cleanStop threshold fracthresh (peakAbs dirty)
        (((hogbomStep gain psf)^[j] (cleanInit dirty)).2) = false) ∧
    ((deconvolve_cube dirty psf niter gain threshold fracthresh).2 < niter →
      cleanStop threshold fracthresh (peakAbs dirty)
        (((deconvolve_cube dirty psf niter gain threshold fracthresh).1).2) = true) :=
  ⟨cleanLoop_le _ _ niter _, cleanLoop_iterate _ _ niter _,
   fun j hj => cleanLoop_no_early _ _ niter _ j hj,
   fun hlt => cleanLoop_stop_at_exit _ _ niter _ hlt⟩

/-! ## Helper lemmas: the major-cycle loop -/

theorem majorCycles_length_le {σ : Type} (stepf : σ → σ) (conv : σ → Bool) :
    ∀ (n : ℕ) (st : σ), (majorCycles stepf conv n st).length ≤ n := by
  intro n
  induction n with
  | zero => intro st; simp [majorCycles]
  | succ n ih =>
    intro st
    cases hc : conv (stepf st) <;> simp [majorCycles, hc]
    exact ih (stepf st)

theorem majorCycles_ne_nil {σ : Type} (stepf : σ → σ) (conv : σ → Bool) (n : ℕ) (st : σ)
    (h : 0 < n) : majorCycles stepf conv n st ≠ [] := by
  match n, h with
  | n + 1, _ =>
    cases hc : conv (stepf st) <;> simp [majorCycles, hc]

theorem majorCycles_dropLast_not_conv {σ : Type} (stepf : σ → σ) (conv : σ → Bool) :
    ∀ (n : ℕ) (st : σ), ∀ t ∈ (majorCycles stepf conv n st).dropLast, conv t = false := by
  intro n
  induction n with
  | zero => intro st t ht; simp [majorCycles] at ht
  | succ n ih =>
    intro st t ht
    cases hc : conv (stepf st)
    · rw [majorCycles, if_neg (by simp [hc])] at ht
      rcases hT : majorCycles stepf conv n (stepf st) with _ | ⟨b, t'⟩
      · rw [hT] at ht
        simp at ht
      · rw [hT, List.dropLast_cons_of_ne_nil (List.cons_ne_nil b t')] at ht
        rcases List.mem_cons.mp ht with h1 | h2
        · subst h1; exact hc
        · exact ih (stepf st) t (by rw [hT]; exact h2)
    · rw [majorCycles, if_pos (by simp [hc])] at ht
      simp at ht

theorem majorCycles_early_conv {σ : Type} (stepf : σ → σ) (conv : σ → Bool) :
    ∀ (n : ℕ) (st : σ), (majorCycles stepf conv n st).length < n →
      ∃ t, (majorCycles stepf conv n st).getLast? = some t ∧ conv t = true := by
  intro n
  induction n with
  | zero => intro st h; simp [majorCycles] at h
  | succ n ih =>
    intro st h
    cases hc : conv (stepf st)
    · rw [majorCycles, if_neg (by simp [hc])] at h ⊢
      have hlen : (majorCycles stepf conv n (stepf st)).length < n := by
        simp only [List.length_cons] at h
        omega
      have hne : majorCycles stepf conv n (stepf st) ≠ [] := by
        intro h0
        rw [h0] at hlen
        simp only [List.length_nil] at hlen
        exact majorCycles_ne_nil stepf conv n (stepf st) hlen h0
      obtain ⟨t, hlast, hconv⟩ := ih (stepf st) hlen
      refine ⟨t, ?_, hconv⟩
      rcases hT : majorCycles stepf conv n (stepf st) with _ | ⟨b, t'⟩
      · exact absurd hT hne
      · rw [hT] at hlast
        exact List.getLast?_cons_cons.trans hlast
    · rw [majorCycles, if_pos (by simp [hc])]
      exact ⟨stepf st, rfl, hc⟩

/-! ## Claim C4: the major-cycle budget and convergence exit -/

/-- Claim C4: the continuum-imaging pipeline runs its
Invert/Deconvolve/Predict-Model/Residual major cycle at most `nmajor` times
(Exhausted); the convergence test fails at every cycle it continued past,
and whenever it stops before exhausting `nmajor` the last completed cycle
passes the fractional-residual-peak convergence test (Converged). -/
theorem continuum_pipeline_major_cycle_budget (K : Sample → ℕ → ℚ)
    (pk : List ℚ → Sample → ℚ × ℚ) (strat : Strategy) (nslices : ℕ) (axmin axstep : ℚ)
    (npix niter : ℕ) (gain threshold fracthresh : ℚ) (nmajor : ℕ)
    (obs : List Sample) (model0 : List ℚ) :
    (create_continuum_imaging_pipeline_graph K pk strat nslices axmin axstep npix niter
        gain threshold fracthresh nmajor obs model0).length ≤ nmajor ∧
    (∀ t ∈ (create_continuum_imaging_pipeline_graph K pk strat nslices axmin axstep npix
        niter gain threshold fracthresh nmajor obs model0).dropLast,
      convTest threshold (peakAbs (imgOf npix (invert K false obs).1)) t = false) ∧
    ((create_continuum_imaging_pipeline_graph K pk strat nslices axmin axstep npix niter
        gain threshold fracthresh nmajor obs model0).length < nmajor →
      ∃ t, (create_continuum_imaging_pipeline_graph K pk strat nslices axmin axstep npix
          niter gain threshold fracthresh nmajor obs model0).getLast? = some t ∧
        convTest threshold (peakAbs (imgOf npix (invert K false obs).1)) t = true) :=
  ⟨majorCycles_length_le _ _ nmajor _,
   majorCycles_dropLast_not_conv _ _ nmajor _,
   majorCycles_early_conv _ _ nmajor _⟩

/-! ## Claim C6: identity-gain fallback on solver non-convergence -/

theorem apply_gaintable_one (vs : List Sample) : apply_gaintable vs (fun _ => 1) = vs := by
  simp [apply_gaintable]

theorem selfcalStep_none (pk : List ℚ → Sample → ℚ × ℚ) (strat : Strategy) (nslices : ℕ)
    (axmin axstep : ℚ) (st : PipeState) :
    selfcalStep (fun _ _ => none) pk strat nslices axmin axstep st = st := by
  simp [selfcalStep, apply_gaintable_one]

theorem icalLoop_congr {σ : Type} (stepAt : ℕ → σ → σ) (stepf : σ → σ) (conv : σ → Bool)
    (h : ∀ i st, stepAt i st = stepf st) :
    ∀ (n i : ℕ) (st : σ), icalLoop stepAt conv n i st = majorCycles stepf conv n st := by
  intro n
  induction n with
  | zero => intro i st; rfl
  | succ n ih =>
    intro i st
    simp only [icalLoop, majorCycles, h, ih]

/-- Claim C6: a gain solver that always reports non-convergence makes every
qualifying self-calibration cycle fall back to identity gains, which leave
the pipeline state untouched, so the full ICAL run with `first_selfcal = 1`
completes (the model is total) and produces exactly the trace — hence the
output images — of the run without self-calibration. -/
theorem ical_selfcal_fallback (K : Sample → ℕ → ℚ) (pk : List ℚ → Sample → ℚ × ℚ)
    (strat : Strategy) (nslices : ℕ) (axmin axstep : ℚ) (npix niter : ℕ)
    (gain threshold fracthresh : ℚ) (nmajor : ℕ) (obs : List Sample) (model0 : List ℚ)
    (st : PipeState) :
    selfcalStep (fun _ _ => none) pk strat nslices axmin axstep st = st ∧
    create_ical_pipeline_graph (fun _ _ => none) 1 K pk strat nslices axmin axstep npix
        niter gain threshold fracthresh nmajor obs model0
      = create_continuum_imaging_pipeline_graph K pk strat nslices axmin axstep npix
          niter gain threshold fracthresh nmajor obs model0 := by
  refine ⟨selfcalStep_none pk strat nslices axmin axstep st, ?_⟩
  rw [create_ical_pipeline_graph, create_continuum_imaging_pipeline_graph]
  apply icalLoop_congr
  intro i st'
  by_cases hi : 1 ≤ i
  · rw [if_pos hi, selfcalStep_none]
  · rw [if_neg hi]

end ARL
